import Mathlib

/-!
Shallow embedding of the stochastic pore-placement sampler
(function generate_realistic_pores in src/app/utils.py, together with the
configuration defaults of src/app/config.py) over exact rational arithmetic.

Randomness is modelled by an explicit tape: every call the source makes to
the numpy global random generator reads a designated entry of the tape, and
the semantic guarantees of the numpy distributions (uniform draws lie in the
requested interval, exponential draws are non-negative, beta draws lie in
the unit interval, sign draws are plus or minus one, index draws are valid
indices) are collected in the predicate TapeValid.  Gaussian jitter draws
are entirely unconstrained.

Numpy float pathologies that the claims depend on are modelled explicitly:
NpFloat adds non-finite values to the rationals, norm_intrusion reproduces
the elementwise division by a zero sum, choiceCheck reproduces the argument
validation of numpy RandomState.choice, and an empty reduction in the
radius-rescaling step yields the zero-size-reduction error that np.max
raises on an empty array.
-/

namespace PoreModel

/-- Configuration fields read by generate_realistic_pores
    (src/app/config.py, _load_default_config). -/
structure PoreConfig where
  lengthScale : ℚ
  widthScale : ℚ
  thicknessScale : ℚ
  edgeMarginFactor : ℚ
  zMarginFactor : ℚ
  diagonalPoreRatio : ℚ
  jitterStrength : ℚ
  zJitterFactor : ℚ
  edgePositionFactor : ℚ
  cornerPositionFactor : ℚ
  minPoreRadius : ℚ
  maxPoreRadius : ℚ
  poreScaleFactor : ℚ
deriving DecidableEq

/-- The defaults of _load_default_config in src/app/config.py. -/
def defaultConfig : PoreConfig where
  lengthScale := 2
  widthScale := 2
  thicknessScale := 1/2
  edgeMarginFactor := 19/20
  zMarginFactor := 4/5
  diagonalPoreRatio := 1/4
  jitterStrength := 1/100
  zJitterFactor := 1/2
  edgePositionFactor := 9/10
  cornerPositionFactor := 17/20
  minPoreRadius := 3/100
  maxPoreRadius := 2/25
  poreScaleFactor := 1

/-- x_bound = config.length_scale * positioning_params[edge_margin_factor]. -/
def xBound (cfg : PoreConfig) : ℚ := cfg.lengthScale * cfg.edgeMarginFactor

/-- y_bound = config.width_scale * positioning_params[edge_margin_factor]. -/
def yBound (cfg : PoreConfig) : ℚ := cfg.widthScale * cfg.edgeMarginFactor

/-- z_bound = config.thickness_scale * positioning_params[z_margin_factor]. -/
def zBound (cfg : PoreConfig) : ℚ := cfg.thicknessScale * cfg.zMarginFactor

/-- A numpy double that is either finite (modelled exactly as a rational)
    or one of the non-finite values produced by division by zero. -/
inductive NpFloat where
  | finite : ℚ → NpFloat
  | nan : NpFloat
  | posInf : NpFloat
  | negInf : NpFloat
deriving DecidableEq

/-- IEEE addition on the modelled doubles. -/
def NpFloat.add : NpFloat → NpFloat → NpFloat
  | .nan, _ => .nan
  | _, .nan => .nan
  | .posInf, .negInf => .nan
  | .negInf, .posInf => .nan
  | .posInf, _ => .posInf
  | _, .posInf => .posInf
  | .negInf, _ => .negInf
  | _, .negInf => .negInf
  | .finite a, .finite b => .finite (a + b)

/-- Sum of a list of modelled doubles (numpy kahan_sum over p). -/
def npSum (l : List NpFloat) : NpFloat := l.foldl NpFloat.add (.finite 0)

/-- The elementwise test p less than zero used by numpy choice validation;
    NaN compares false, negative infinity compares true. -/
def NpFloat.isNeg : NpFloat → Bool
  | .finite q => decide (q < 0)
  | .negInf => true
  | _ => false

/-- IEEE division of a finite value by (positive) zero:
    0/0 is NaN, nonzero/0 is a signed infinity. -/
def divByZero (v : ℚ) : NpFloat :=
  if v = 0 then .nan else if 0 < v then .posInf else .negInf

/-- norm_intrusion = intrusion_values / np.sum(intrusion_values)
    (src/app/utils.py line 137), including the IEEE behaviour when the sum
    is zero. -/
def norm_intrusion (intrusion : List ℚ) : List NpFloat :=
  if intrusion.sum = 0 then intrusion.map divByZero
  else intrusion.map (fun v => NpFloat.finite (v / intrusion.sum))

/-- The ValueError exceptions this code path can surface from numpy. -/
inductive NpError where
  | sizeMismatch
  | probContainsNaN
  | probNegative
  | probSumNot1
  | zeroSizeReduction
deriving DecidableEq

/-- Argument validation of numpy RandomState.choice on the probability
    vector p: size agreement with the population, a NaN total, negative
    entries, and a total different from one each raise ValueError. -/
def choiceCheck (popSize : ℕ) (p : List NpFloat) : Except NpError Unit :=
  if p.length ≠ popSize then .error .sizeMismatch
  else if npSum p = .nan then .error .probContainsNaN
  else if p.any NpFloat.isNeg then .error .probNegative
  else if npSum p ≠ .finite 1 then .error .probSumNot1
  else .ok ()

/-- The random tape of one call: entry i of each component is the value
    returned by the corresponding numpy draw for pore i of that stratum. -/
structure PoreTape where
  choiceIdx : ℕ → ℕ
  topExp : ℕ → ℚ
  topX : ℕ → ℚ
  topY : ℕ → ℚ
  diagT : ℕ → ℚ
  diagSignX : ℕ → ℚ
  diagSignY : ℕ → ℚ
  diagJX : ℕ → ℚ
  diagJY : ℕ → ℚ
  diagJZ : ℕ → ℚ
  edgeKind : ℕ → Fin 3
  edgeUX : ℕ → ℚ
  edgeUY : ℕ → ℚ
  edgeR1 : ℕ → ℚ
  edgeR2 : ℕ → ℚ
  edgeR3 : ℕ → ℚ
  edgeSign1 : ℕ → ℚ
  edgeSign2 : ℕ → ℚ
  edgeJX : ℕ → ℚ
  edgeJY : ℕ → ℚ
  edgeJZ : ℕ → ℚ
  remX : ℕ → ℚ
  remY : ℕ → ℚ
  remZ : ℕ → ℚ

/-- Semantic guarantees of the numpy distributions used by the sampler.
    The Gaussian jitter components are deliberately unconstrained. -/
structure TapeValid (cfg : PoreConfig) (nDiam : ℕ) (tape : PoreTape) : Prop where
  choiceIdx_lt : ∀ i, tape.choiceIdx i < nDiam
  topExp_nonneg : ∀ i, 0 ≤ tape.topExp i
  topX_range : ∀ i, -(xBound cfg) ≤ tape.topX i ∧ tape.topX i ≤ xBound cfg
  topY_range : ∀ i, -(yBound cfg) ≤ tape.topY i ∧ tape.topY i ≤ yBound cfg
  diagT_range : ∀ i, 0 ≤ tape.diagT i ∧ tape.diagT i ≤ 1
  diagSignX_pm : ∀ i, tape.diagSignX i = -1 ∨ tape.diagSignX i = 1
  diagSignY_pm : ∀ i, tape.diagSignY i = -1 ∨ tape.diagSignY i = 1
  edgeUX_range : ∀ i, -(xBound cfg) ≤ tape.edgeUX i ∧ tape.edgeUX i ≤ xBound cfg
  edgeUY_range : ∀ i, -(yBound cfg) ≤ tape.edgeUY i ∧ tape.edgeUY i ≤ yBound cfg
  edgeR1_range : ∀ i, 0 ≤ tape.edgeR1 i ∧ tape.edgeR1 i < 1
  edgeR2_range : ∀ i, 0 ≤ tape.edgeR2 i ∧ tape.edgeR2 i < 1
  edgeR3_range : ∀ i, 0 ≤ tape.edgeR3 i ∧ tape.edgeR3 i < 1
  edgeSign1_pm : ∀ i, tape.edgeSign1 i = -1 ∨ tape.edgeSign1 i = 1
  edgeSign2_pm : ∀ i, tape.edgeSign2 i = -1 ∨ tape.edgeSign2 i = 1
  remX_range : ∀ i, -(xBound cfg) ≤ tape.remX i ∧ tape.remX i ≤ xBound cfg
  remY_range : ∀ i, -(yBound cfg) ≤ tape.remY i ∧ tape.remY i ≤ yBound cfg
  remZ_range : ∀ i, -(zBound cfg) ≤ tape.remZ i ∧ tape.remZ i ≤ zBound cfg

/-- Hard clamp of a coordinate into the symmetric interval of one axis:
    max(min(v, b), -b). -/
def clampTo (b v : ℚ) : ℚ := max (min v b) (-b)

/-- add_pore_at (src/app/utils.py lines 171-183): add Gaussian jitter to
    each coordinate, then clamp every coordinate back into its bounds. -/
def add_pore_at (cfg : PoreConfig) (jx jy jz x y z : ℚ) : ℚ × ℚ × ℚ :=
  (clampTo (xBound cfg) (x + jx), clampTo (yBound cfg) (y + jy),
   clampTo (zBound cfg) (z + jz))

/-- One pore of the top-weighted stratum: z is exponentially concentrated
    toward the top and clamped into the interval from 0 to z_bound, x and y
    are uniform draws; no jitter is applied. -/
def topPore (cfg : PoreConfig) (tape : PoreTape) (i : ℕ) : ℚ × ℚ × ℚ :=
  (tape.topX i, tape.topY i,
   min (zBound cfg) (max 0 (zBound cfg * (1 - tape.topExp i))))

/-- One pore of the diagonal stratum, jittered and clamped. -/
def diagPore (cfg : PoreConfig) (tape : PoreTape) (i : ℕ) : ℚ × ℚ × ℚ :=
  add_pore_at cfg (tape.diagJX i) (tape.diagJY i) (tape.diagJZ i)
    (xBound cfg * (1 - tape.diagT i * cfg.edgePositionFactor) * tape.diagSignX i)
    (yBound cfg * (1 - tape.diagT i * cfg.edgePositionFactor) * tape.diagSignY i)
    (zBound cfg * (1 - tape.diagT i * (1/2)))

/-- One pore of the edge/corner stratum (sub-styles top-x, top-y, corner),
    jittered and clamped. -/
def edgePore (cfg : PoreConfig) (tape : PoreTape) (i : ℕ) : ℚ × ℚ × ℚ :=
  let raw : ℚ × ℚ × ℚ :=
    if tape.edgeKind i = (0 : Fin 3) then
      (tape.edgeUX i,
       yBound cfg * (cfg.edgePositionFactor +
         (1 - cfg.edgePositionFactor) * tape.edgeR1 i) * tape.edgeSign1 i,
       zBound cfg * (4/5 + 1/5 * tape.edgeR2 i))
    else if tape.edgeKind i = (1 : Fin 3) then
      (xBound cfg * (cfg.edgePositionFactor +
         (1 - cfg.edgePositionFactor) * tape.edgeR1 i) * tape.edgeSign1 i,
       tape.edgeUY i,
       zBound cfg * (4/5 + 1/5 * tape.edgeR2 i))
    else
      (xBound cfg * (cfg.cornerPositionFactor +
         (1 - cfg.cornerPositionFactor) * tape.edgeR1 i) * tape.edgeSign1 i,
       yBound cfg * (cfg.cornerPositionFactor +
         (1 - cfg.cornerPositionFactor) * tape.edgeR2 i) * tape.edgeSign2 i,
       zBound cfg * (cfg.cornerPositionFactor +
         (1 - cfg.cornerPositionFactor) * tape.edgeR3 i))
  add_pore_at cfg (tape.edgeJX i) (tape.edgeJY i) (tape.edgeJZ i)
    raw.1 raw.2.1 raw.2.2

/-- One pore of the final uniform stratum. -/
def remPore (tape : PoreTape) (i : ℕ) : ℚ × ℚ × ℚ :=
  (tape.remX i, tape.remY i, tape.remZ i)

/-- top_pores = int(n_pores * 0.4). -/
def topCount (n : ℕ) : ℕ := ⌊(n : ℚ) * (2/5)⌋₊

/-- diag_pores = int(n_pores * positioning_params[diagonal_pore_ratio]). -/
def diagCount (cfg : PoreConfig) (n : ℕ) : ℕ := ⌊(n : ℚ) * cfg.diagonalPoreRatio⌋₊

/-- edge_pores = int(n_pores * 0.15). -/
def edgeCount (n : ℕ) : ℕ := ⌊(n : ℚ) * (3/20)⌋₊

/-- The pore positions appended by the first three strata, in order. -/
def placedPores (cfg : PoreConfig) (tape : PoreTape) (n : ℕ) : List (ℚ × ℚ × ℚ) :=
  ((List.range (topCount n)).map (topPore cfg tape) ++
    (List.range (diagCount cfg n)).map (diagPore cfg tape)) ++
    (List.range (edgeCount n)).map (edgePore cfg tape)

/-- All pore positions: the three biased strata followed by the uniform
    stratum, whose count is remaining = n_pores - len(pore_positions). -/
def positionsOf (cfg : PoreConfig) (tape : PoreTape) (n : ℕ) : List (ℚ × ℚ × ℚ) :=
  placedPores cfg tape n ++
    (List.range (n - (placedPores cfg tape n).length)).map (remPore tape)

/-- selected_diameters = diameters[indices]: entry i of the resample is the
    diameter at the i-th sampled index. -/
def selectedDiameters (diam : List ℚ) (tape : PoreTape) (n : ℕ) : List ℚ :=
  (List.range n).map (fun i => diam.getD (tape.choiceIdx i) 0)

/-- Physical radius of a sampled diameter:
    nm to micrometers (divide by 1000), then diameter to radius. -/
def physRadius (d : ℚ) : ℚ := d / 1000 / 2

/-- np.min of a nonempty list. -/
def npMin (l : List ℚ) : ℚ := l.foldl min (l.headD 0)

/-- np.max of a nonempty list. -/
def npMax (l : List ℚ) : ℚ := l.foldl max (l.headD 0)

/-- The linear rescaling of one physical radius into the configured
    visualization range. -/
def rescaleOne (cfg : PoreConfig) (minR maxR x : ℚ) : ℚ :=
  cfg.minPoreRadius + (cfg.maxPoreRadius - cfg.minPoreRadius) * (x - minR) / (maxR - minR)

/-- The radius-rescaling step (src/app/utils.py lines 143-158): convert the
    selected diameters to physical radii, rescale them linearly into the
    configured range relative to the min and max of this draw (constant
    midpoint when the draw is degenerate), and multiply by the global pore
    scale factor.  np.max of an empty array raises ValueError. -/
def rescaleRadii (cfg : PoreConfig) (selected : List ℚ) : Except NpError (List ℚ) :=
  if selected = [] then .error .zeroSizeReduction
  else if npMax (selected.map physRadius) ≠ npMin (selected.map physRadius) then
    .ok (((selected.map physRadius).map
      (rescaleOne cfg (npMin (selected.map physRadius))
        (npMax (selected.map physRadius)))).map
      (fun x => x * cfg.poreScaleFactor))
  else
    .ok (((selected.map physRadius).map
      (fun _ => (cfg.minPoreRadius + cfg.maxPoreRadius) / 2)).map
      (fun x => x * cfg.poreScaleFactor))

/-- The generated pore set: index-aligned positions, render radii and
    source diameters. -/
structure PoreResult where
  positions : List (ℚ × ℚ × ℚ)
  radii : List ℚ
  diameters : List ℚ
deriving DecidableEq

/-- generate_realistic_pores (src/app/utils.py lines 99-250): normalize the
    intrusion data, resample diameters through numpy choice (whose argument
    validation can raise), rescale the radii (np.max on an empty draw can
    raise), and place the pores by the four-way stratified scheme. -/
def generate_realistic_pores (cfg : PoreConfig) (diam intr : List ℚ)
    (tape : PoreTape) (nPores : ℕ) : Except NpError PoreResult :=
  match choiceCheck diam.length (norm_intrusion intr) with
  | .error e => .error e
  | .ok _ =>
    match rescaleRadii cfg (selectedDiameters diam tape nPores) with
    | .error e => .error e
    | .ok scaled =>
      .ok ⟨positionsOf cfg tape nPores, scaled, selectedDiameters diam tape nPores⟩

/-- A concrete tape whose draws are all at the low end of their ranges. -/
def constTape : PoreTape where
  choiceIdx := fun _ => 0
  topExp := fun _ => 0
  topX := fun _ => 0
  topY := fun _ => 0
  diagT := fun _ => 0
  diagSignX := fun _ => 1
  diagSignY := fun _ => 1
  diagJX := fun _ => 0
  diagJY := fun _ => 0
  diagJZ := fun _ => 0
  edgeKind := fun _ => 0
  edgeUX := fun _ => 0
  edgeUY := fun _ => 0
  edgeR1 := fun _ => 0
  edgeR2 := fun _ => 0
  edgeR3 := fun _ => 0
  edgeSign1 := fun _ => 1
  edgeSign2 := fun _ => 1
  edgeJX := fun _ => 0
  edgeJY := fun _ => 0
  edgeJZ := fun _ => 0
  remX := fun _ => 0
  remY := fun _ => 0
  remZ := fun _ => 0

/-! ### Helper lemmas about the modelled numpy doubles -/

lemma add_nan_right (a : NpFloat) : a.add .nan = .nan := by
  cases a <;> rfl

lemma add_nan_left (a : NpFloat) : NpFloat.add .nan a = .nan := by
  cases a <;> rfl

lemma foldl_add_nan (l : List NpFloat) : l.foldl NpFloat.add .nan = .nan := by
  induction l with
  | nil => rfl
  | cons x xs ih => rw [List.foldl_cons, add_nan_left]; exact ih

lemma npSum_eq_nan_of_mem {l : List NpFloat} (h : NpFloat.nan ∈ l) :
    npSum l = .nan := by
  obtain ⟨s, t, rfl⟩ := List.append_of_mem h
  rw [npSum, List.foldl_append, List.foldl_cons, add_nan_right]
  exact foldl_add_nan t

lemma foldl_add_posInf_nan {l : List NpFloat} (h : NpFloat.negInf ∈ l) :
    l.foldl NpFloat.add .posInf = .nan := by
  induction l with
  | nil => cases h
  | cons x xs ih =>
    rcases List.mem_cons.mp h with hx | hx
    · rw [List.foldl_cons, ← hx]
      exact foldl_add_nan xs
    · cases x with
      | nan => rw [List.foldl_cons, add_nan_right]; exact foldl_add_nan xs
      | posInf => exact ih hx
      | negInf => rw [List.foldl_cons]; exact foldl_add_nan xs
      | finite b => exact ih hx

lemma foldl_add_negInf_nan {l : List NpFloat} (h : NpFloat.posInf ∈ l) :
    l.foldl NpFloat.add .negInf = .nan := by
  induction l with
  | nil => cases h
  | cons x xs ih =>
    rcases List.mem_cons.mp h with hx | hx
    · rw [List.foldl_cons, ← hx]
      exact foldl_add_nan xs
    · cases x with
      | nan => rw [List.foldl_cons, add_nan_right]; exact foldl_add_nan xs
      | negInf => exact ih hx
      | posInf => rw [List.foldl_cons]; exact foldl_add_nan xs
      | finite b => exact ih hx

lemma foldl_add_finite_nan (l : List NpFloat) :
    ∀ a : ℚ, NpFloat.posInf ∈ l → NpFloat.negInf ∈ l →
      l.foldl NpFloat.add (.finite a) = .nan := by
  induction l with
  | nil => intro a hp _; cases hp
  | cons x xs ih =>
    intro a hp hn
    cases x with
    | nan => rw [List.foldl_cons, add_nan_right]; exact foldl_add_nan xs
    | posInf =>
      have hn2 : NpFloat.negInf ∈ xs := by
        rcases List.mem_cons.mp hn with hx | hx
        · exact absurd hx (by simp)
        · exact hx
      rw [List.foldl_cons]
      exact foldl_add_posInf_nan hn2
    | negInf =>
      have hp2 : NpFloat.posInf ∈ xs := by
        rcases List.mem_cons.mp hp with hx | hx
        · exact absurd hx (by simp)
        · exact hx
      rw [List.foldl_cons]
      exact foldl_add_negInf_nan hp2
    | finite b =>
      have hp2 : NpFloat.posInf ∈ xs := by
        rcases List.mem_cons.mp hp with hx | hx
        · exact absurd hx (by simp)
        · exact hx
      have hn2 : NpFloat.negInf ∈ xs := by
        rcases List.mem_cons.mp hn with hx | hx
        · exact absurd hx (by simp)
        · exact hx
      rw [List.foldl_cons]
      exact ih (a + b) hp2 hn2

lemma npSum_nan_of_pm {l : List NpFloat}
    (hp : NpFloat.posInf ∈ l) (hn : NpFloat.negInf ∈ l) : npSum l = .nan :=
  foldl_add_finite_nan l 0 hp hn

lemma foldl_add_map_finite (f : ℚ → ℚ) (l : List ℚ) :
    ∀ a : ℚ, (l.map fun v => NpFloat.finite (f v)).foldl NpFloat.add (.finite a)
      = .finite (a + (l.map f).sum) := by
  induction l with
  | nil => intro a; simp
  | cons x xs ih =>
    intro a
    simp only [List.map_cons, List.foldl_cons, List.sum_cons]
    rw [show NpFloat.add (.finite a) (.finite (f x)) = .finite (a + f x) from rfl]
    rw [ih (a + f x)]
    congr 1
    ring

lemma npSum_map_finite (f : ℚ → ℚ) (l : List ℚ) :
    npSum (l.map fun v => NpFloat.finite (f v)) = .finite ((l.map f).sum) := by
  rw [npSum, foldl_add_map_finite, zero_add]

lemma sum_map_div (l : List ℚ) (s : ℚ) : (l.map fun v => v / s).sum = l.sum / s := by
  induction l with
  | nil => simp
  | cons x xs ih => simp [ih, add_div]

/-- With an equal-size, non-negative, positive-sum intrusion vector the
    numpy choice validation accepts the normalized probabilities. -/
lemma choiceCheck_ok (popSize : ℕ) (intr : List ℚ)
    (hlen : intr.length = popSize)
    (hnn : ∀ v ∈ intr, 0 ≤ v) (hpos : 0 < intr.sum) :
    choiceCheck popSize (norm_intrusion intr) = .ok () := by
  have hs : intr.sum ≠ 0 := ne_of_gt hpos
  have hform : norm_intrusion intr = intr.map fun v => NpFloat.finite (v / intr.sum) := by
    rw [norm_intrusion, if_neg hs]
  have hsum : npSum (norm_intrusion intr) = .finite 1 := by
    rw [hform, npSum_map_finite, sum_map_div, div_self hs]
  have hlen2 : (norm_intrusion intr).length = popSize := by
    rw [hform, List.length_map, hlen]
  have hneg : (norm_intrusion intr).any NpFloat.isNeg = false := by
    rw [hform, List.any_eq_false]
    intro x hx
    rw [List.mem_map] at hx
    obtain ⟨v, hv, rfl⟩ := hx
    simp only [NpFloat.isNeg, decide_eq_true_eq, not_lt]
    exact div_nonneg (hnn v hv) (le_of_lt hpos)
  simp [choiceCheck, hlen2, hsum, hneg]

/-! ### Helper lemmas about the rescaling step and the result shape -/

lemma rescaleRadii_ok_of_ne {cfg : PoreConfig} {sel : List ℚ} (h : sel ≠ []) :
    ∃ rs, rescaleRadii cfg sel = .ok rs ∧ rs.length = sel.length ∧
      ∃ f : ℚ → ℚ, rs = sel.map f := by
  unfold rescaleRadii
  rw [if_neg h]
  split
  · refine ⟨_, rfl, by simp, ?_⟩
    refine ⟨fun d => rescaleOne cfg (npMin (sel.map physRadius))
      (npMax (sel.map physRadius)) (physRadius d) * cfg.poreScaleFactor, ?_⟩
    rw [List.map_map, List.map_map]
    rfl
  · refine ⟨_, rfl, by simp, ?_⟩
    refine ⟨fun _ => (cfg.minPoreRadius + cfg.maxPoreRadius) / 2 * cfg.poreScaleFactor, ?_⟩
    rw [List.map_map, List.map_map]
    rfl

lemma rescaleRadii_ok_elim {cfg : PoreConfig} {sel rs : List ℚ}
    (h : rescaleRadii cfg sel = .ok rs) :
    sel ≠ [] ∧
      ((npMax (sel.map physRadius) ≠ npMin (sel.map physRadius) ∧
        rs = ((sel.map physRadius).map
          (rescaleOne cfg (npMin (sel.map physRadius))
            (npMax (sel.map physRadius)))).map (fun x => x * cfg.poreScaleFactor)) ∨
       (npMax (sel.map physRadius) = npMin (sel.map physRadius) ∧
        rs = ((sel.map physRadius).map
          (fun _ => (cfg.minPoreRadius + cfg.maxPoreRadius) / 2)).map
            (fun x => x * cfg.poreScaleFactor))) := by
  unfold rescaleRadii at h
  split at h
  · cases h
  · next hne =>
    split at h
    · next hmax =>
      cases h
      exact ⟨hne, Or.inl ⟨hmax, rfl⟩⟩
    · next hmax =>
      cases h
      exact ⟨hne, Or.inr ⟨not_ne_iff.mp hmax, rfl⟩⟩

lemma generate_ok_elim {cfg : PoreConfig} {diam intr : List ℚ} {tape : PoreTape}
    {n : ℕ} {out : PoreResult}
    (h : generate_realistic_pores cfg diam intr tape n = .ok out) :
    out.positions = positionsOf cfg tape n ∧
    out.diameters = selectedDiameters diam tape n ∧
    rescaleRadii cfg (selectedDiameters diam tape n) = .ok out.radii := by
  unfold generate_realistic_pores at h
  split at h
  · cases h
  · split at h
    · cases h
    · next scaled heq =>
      cases h
      exact ⟨rfl, rfl, heq⟩

/-! ### Stratum counts -/

lemma placedPores_length (cfg : PoreConfig) (tape : PoreTape) (n : ℕ) :
    (placedPores cfg tape n).length = topCount n + diagCount cfg n + edgeCount n := by
  simp [placedPores]
  omega

lemma counts_le {cfg : PoreConfig} (n : ℕ)
    (hr0 : 0 ≤ cfg.diagonalPoreRatio) (hr1 : cfg.diagonalPoreRatio ≤ 9/20) :
    topCount n + diagCount cfg n + edgeCount n ≤ n := by
  have h1 : ((topCount n : ℕ) : ℚ) ≤ (n : ℚ) * (2/5) := Nat.floor_le (by positivity)
  have h2 : ((diagCount cfg n : ℕ) : ℚ) ≤ (n : ℚ) * cfg.diagonalPoreRatio :=
    Nat.floor_le (mul_nonneg (Nat.cast_nonneg n) hr0)
  have h3 : ((edgeCount n : ℕ) : ℚ) ≤ (n : ℚ) * (3/20) := Nat.floor_le (by positivity)
  have h4 : (n : ℚ) * cfg.diagonalPoreRatio ≤ (n : ℚ) * (9/20) :=
    mul_le_mul_of_nonneg_left hr1 (Nat.cast_nonneg n)
  have h5 : ((topCount n + diagCount cfg n + edgeCount n : ℕ) : ℚ) ≤ (n : ℚ) := by
    push_cast
    linarith
  exact_mod_cast h5

lemma positionsOf_length {cfg : PoreConfig} {tape : PoreTape} {n : ℕ}
    (h : topCount n + diagCount cfg n + edgeCount n ≤ n) :
    (positionsOf cfg tape n).length = n := by
  simp only [positionsOf, List.length_append, List.length_map, List.length_range,
    placedPores_length]
  omega

/-! ### C1 -/

/-- C1: for every valid input (equal-length diameter and intrusion arrays,
non-negative intrusion values with positive sum, positive pore count, the
diagonal stratum ratio within the stratum budget as configured),
generate_realistic_pores succeeds and returns exactly nPores positions,
exactly nPores render radii and exactly nPores source diameters, the radii
being a pointwise function of the index-aligned source diameters. -/
theorem c1_output_sizes (cfg : PoreConfig) (diam intr : List ℚ)
    (tape : PoreTape) (n : ℕ)
    (hlen : intr.length = diam.length)
    (hnn : ∀ v ∈ intr, 0 ≤ v) (hpos : 0 < intr.sum) (hn : 0 < n)
    (hr0 : 0 ≤ cfg.diagonalPoreRatio) (hr1 : cfg.diagonalPoreRatio ≤ 9/20) :
    ∃ out, generate_realistic_pores cfg diam intr tape n = .ok out ∧
      out.positions.length = n ∧ out.radii.length = n ∧ out.diameters.length = n ∧
      ∃ f : ℚ → ℚ, out.radii = out.diameters.map f := by
  have hcc := choiceCheck_ok diam.length intr hlen hnn hpos
  have hsellen : (selectedDiameters diam tape n).length = n := by
    simp [selectedDiameters]
  have hselne : selectedDiameters diam tape n ≠ [] := by
    intro hemp
    rw [hemp] at hsellen
    simp at hsellen
    omega
  obtain ⟨rs, hrs, hrslen, f, hf⟩ := @rescaleRadii_ok_of_ne cfg _ hselne
  refine ⟨⟨positionsOf cfg tape n, rs, selectedDiameters diam tape n⟩, ?_, ?_, ?_, ?_, ?_⟩
  · unfold generate_realistic_pores
    rw [hcc, hrs]
  · exact positionsOf_length (counts_le n hr0 hr1)
  · exact hrslen.trans hsellen
  · exact hsellen
  · exact ⟨f, hf⟩

/-- C1 witness: the hypotheses hold at a concrete input. -/
theorem c1_output_sizes_witness :
    ∃ out, generate_realistic_pores defaultConfig [1000, 3000] [1, 3] constTape 2 = .ok out ∧
      out.positions.length = 2 ∧ out.radii.length = 2 ∧ out.diameters.length = 2 ∧
      ∃ f : ℚ → ℚ, out.radii = out.diameters.map f :=
  c1_output_sizes defaultConfig [1000, 3000] [1, 3] constTape 2 rfl
    (by norm_num) (by norm_num) (by norm_num) (by norm_num [defaultConfig])
    (by norm_num [defaultConfig])

instance {ε α : Type} [DecidableEq ε] [DecidableEq α] :
    DecidableEq (Except ε α) := fun x y =>
  match x, y with
  | .error e, .error f => decidable_of_iff (e = f) (by simp)
  | .error _, .ok _ => isFalse (by simp)
  | .ok _, .error _ => isFalse (by simp)
  | .ok a, .ok b => decidable_of_iff (a = b) (by simp)

/-! ### C2 -/

lemma abs_clampTo {b : ℚ} (hb : 0 ≤ b) (v : ℚ) : |clampTo b v| ≤ b := by
  rw [clampTo, abs_le]
  refine ⟨le_max_right _ _, max_le (min_le_right v b) (by linarith)⟩

lemma mem_positionsOf {cfg : PoreConfig} {tape : PoreTape} {n : ℕ} {p : ℚ × ℚ × ℚ}
    (hp : p ∈ positionsOf cfg tape n) :
    (∃ i, p = topPore cfg tape i) ∨ (∃ i, p = diagPore cfg tape i) ∨
      (∃ i, p = edgePore cfg tape i) ∨ (∃ i, p = remPore tape i) := by
  simp only [positionsOf, placedPores, List.mem_append, List.mem_map,
    List.mem_range] at hp
  rcases hp with ((⟨i, _, hi⟩ | ⟨i, _, hi⟩) | ⟨i, _, hi⟩) | ⟨i, _, hi⟩
  · exact Or.inl ⟨i, hi.symm⟩
  · exact Or.inr (Or.inl ⟨i, hi.symm⟩)
  · exact Or.inr (Or.inr (Or.inl ⟨i, hi.symm⟩))
  · exact Or.inr (Or.inr (Or.inr ⟨i, hi.symm⟩))

/-- C2: whatever the dataset and however large the Gaussian jitter draws
are, every position of a successfully generated pore set lies within the
per-axis half-extent bounds, in all four placement strata.  Only the
range guarantees of the uniform, exponential and beta draws are assumed;
the jitter entries of the tape are universally quantified. -/
theorem c2_positions_bounded (cfg : PoreConfig) (diam intr : List ℚ)
    (tape : PoreTape) (n : ℕ) (out : PoreResult)
    (hv : TapeValid cfg diam.length tape)
    (hx : 0 ≤ xBound cfg) (hy : 0 ≤ yBound cfg) (hz : 0 ≤ zBound cfg)
    (h : generate_realistic_pores cfg diam intr tape n = .ok out) :
    ∀ p ∈ out.positions,
      |p.1| ≤ xBound cfg ∧ |p.2.1| ≤ yBound cfg ∧ |p.2.2| ≤ zBound cfg := by
  intro p hp
  rw [(generate_ok_elim h).1] at hp
  rcases mem_positionsOf hp with ⟨i, rfl⟩ | ⟨i, rfl⟩ | ⟨i, rfl⟩ | ⟨i, rfl⟩
  · have h0 : (0 : ℚ) ≤ min (zBound cfg)
        (max 0 (zBound cfg * (1 - tape.topExp i))) :=
      le_min hz (le_max_left 0 _)
    refine ⟨abs_le.mpr (hv.topX_range i), abs_le.mpr (hv.topY_range i),
      abs_le.mpr ⟨?_, ?_⟩⟩
    · show -(zBound cfg) ≤ min (zBound cfg) (max 0 (zBound cfg * (1 - tape.topExp i)))
      linarith
    · show min (zBound cfg) (max 0 (zBound cfg * (1 - tape.topExp i))) ≤ zBound cfg
      exact min_le_left _ _
  · exact ⟨abs_clampTo hx _, abs_clampTo hy _, abs_clampTo hz _⟩
  · exact ⟨abs_clampTo hx _, abs_clampTo hy _, abs_clampTo hz _⟩
  · exact ⟨abs_le.mpr (hv.remX_range i), abs_le.mpr (hv.remY_range i),
      abs_le.mpr (hv.remZ_range i)⟩

lemma constTape_valid : TapeValid defaultConfig 1 constTape := by
  constructor <;> intro i <;>
    norm_num [constTape, defaultConfig, xBound, yBound, zBound]

/-! ### Concrete evaluations of one full call, used by the witnesses -/

lemma rescaleRadii_nil (cfg : PoreConfig) :
    rescaleRadii cfg [] = .error .zeroSizeReduction := by
  unfold rescaleRadii
  rw [if_pos rfl]

lemma countsOne : topCount 1 = 0 ∧ diagCount defaultConfig 1 = 0 ∧ edgeCount 1 = 0 := by
  refine ⟨?_, ?_, ?_⟩
  · rw [topCount, Nat.floor_eq_zero]; norm_num
  · rw [diagCount, Nat.floor_eq_zero]; norm_num [defaultConfig]
  · rw [edgeCount, Nat.floor_eq_zero]; norm_num

lemma positionsOfOne : positionsOf defaultConfig constTape 1 = [(0, 0, 0)] := by
  have hplaced : placedPores defaultConfig constTape 1 = [] := by
    rw [placedPores, countsOne.1, countsOne.2.1, countsOne.2.2]
    simp
  rw [positionsOf, hplaced]
  simp [List.range_succ, remPore, constTape]

lemma concreteRunA :
    generate_realistic_pores defaultConfig [1000] [1] constTape 1 =
      .ok ⟨[(0, 0, 0)], [11/200], [1000]⟩ := by
  have hcc : choiceCheck ([1000] : List ℚ).length (norm_intrusion [1]) = .ok () :=
    choiceCheck_ok _ _ (by simp) (by norm_num) (by norm_num)
  have hsel : selectedDiameters [1000] constTape 1 = [1000] := by
    simp [selectedDiameters, constTape, List.range_succ]
  have hphys : ([1000] : List ℚ).map physRadius = [1/2] := by
    norm_num [physRadius]
  have hresc : rescaleRadii defaultConfig [1000] = .ok [11/200] := by
    unfold rescaleRadii
    rw [if_neg (by simp), hphys]
    rw [if_neg (by simp [npMax, npMin])]
    norm_num [defaultConfig]
  unfold generate_realistic_pores
  rw [hcc, hsel, hresc, positionsOfOne]

lemma concreteRunB :
    generate_realistic_pores defaultConfig [2000] [3] constTape 1 =
      .ok ⟨[(0, 0, 0)], [11/200], [2000]⟩ := by
  have hcc : choiceCheck ([2000] : List ℚ).length (norm_intrusion [3]) = .ok () :=
    choiceCheck_ok _ _ (by simp) (by norm_num) (by norm_num)
  have hsel : selectedDiameters [2000] constTape 1 = [2000] := by
    simp [selectedDiameters, constTape, List.range_succ]
  have hphys : ([2000] : List ℚ).map physRadius = [1] := by
    norm_num [physRadius]
  have hresc : rescaleRadii defaultConfig [2000] = .ok [11/200] := by
    unfold rescaleRadii
    rw [if_neg (by simp), hphys]
    rw [if_neg (by simp [npMax, npMin])]
    norm_num [defaultConfig]
  unfold generate_realistic_pores
  rw [hcc, hsel, hresc, positionsOfOne]

/-- C2 witness: the hypotheses hold at a concrete input and position. -/
theorem c2_positions_bounded_witness :
    |(0 : ℚ)| ≤ xBound defaultConfig ∧ |(0 : ℚ)| ≤ yBound defaultConfig ∧
      |(0 : ℚ)| ≤ zBound defaultConfig :=
  c2_positions_bounded defaultConfig [1000] [1] constTape 1
    ⟨[(0, 0, 0)], [11/200], [1000]⟩ constTape_valid
    (by norm_num [xBound, defaultConfig]) (by norm_num [yBound, defaultConfig])
    (by norm_num [zBound, defaultConfig]) concreteRunA (0, 0, 0) (by simp)

/-! ### Minimum / maximum of the sampled radii -/

lemma foldl_min_le_init (l : List ℚ) : ∀ a : ℚ, l.foldl min a ≤ a := by
  induction l with
  | nil => intro a; exact le_refl a
  | cons x xs ih => intro a; exact le_trans (ih (min a x)) (min_le_left a x)

lemma foldl_min_le_mem (l : List ℚ) : ∀ a : ℚ, ∀ x ∈ l, l.foldl min a ≤ x := by
  induction l with
  | nil => intro a x hx; cases hx
  | cons y ys ih =>
    intro a x hx
    rcases List.mem_cons.mp hx with rfl | hx
    · exact le_trans (foldl_min_le_init ys (min a x)) (min_le_right a x)
    · exact ih (min a y) x hx

lemma npMin_le_mem {l : List ℚ} {x : ℚ} (hx : x ∈ l) : npMin l ≤ x :=
  foldl_min_le_mem l (l.headD 0) x hx

lemma init_le_foldl_max (l : List ℚ) : ∀ a : ℚ, a ≤ l.foldl max a := by
  induction l with
  | nil => intro a; exact le_refl a
  | cons x xs ih => intro a; exact le_trans (le_max_left a x) (ih (max a x))

lemma mem_le_foldl_max (l : List ℚ) : ∀ a : ℚ, ∀ x ∈ l, x ≤ l.foldl max a := by
  induction l with
  | nil => intro a x hx; cases hx
  | cons y ys ih =>
    intro a x hx
    rcases List.mem_cons.mp hx with rfl | hx
    · exact le_trans (le_max_right a x) (init_le_foldl_max ys (max a x))
    · exact ih (max a y) x hx

lemma mem_le_npMax {l : List ℚ} {x : ℚ} (hx : x ∈ l) : x ≤ npMax l :=
  mem_le_foldl_max l (l.headD 0) x hx

lemma npMin_le_npMax {l : List ℚ} (h : l ≠ []) : npMin l ≤ npMax l := by
  obtain ⟨y, ys, rfl⟩ := List.exists_cons_of_ne_nil h
  exact le_trans (npMin_le_mem (List.mem_cons_self y ys))
    (mem_le_npMax (List.mem_cons_self y ys))

lemma foldl_min_const (l : List ℚ) (c : ℚ) : (∀ x ∈ l, x = c) → l.foldl min c = c := by
  induction l with
  | nil => intro _; rfl
  | cons x xs ih =>
    intro h
    rw [List.foldl_cons, h x (List.mem_cons_self x xs), min_self]
    exact ih (fun y hy => h y (List.mem_cons_of_mem x hy))

lemma foldl_max_const (l : List ℚ) (c : ℚ) : (∀ x ∈ l, x = c) → l.foldl max c = c := by
  induction l with
  | nil => intro _; rfl
  | cons x xs ih =>
    intro h
    rw [List.foldl_cons, h x (List.mem_cons_self x xs), max_self]
    exact ih (fun y hy => h y (List.mem_cons_of_mem x hy))

lemma npMin_const {l : List ℚ} {c : ℚ} (hne : l ≠ []) (h : ∀ x ∈ l, x = c) :
    npMin l = c := by
  obtain ⟨y, ys, rfl⟩ := List.exists_cons_of_ne_nil hne
  have hy : y = c := h y (List.mem_cons_self y ys)
  subst hy
  simp only [npMin, List.headD_cons, List.foldl_cons, min_self]
  exact foldl_min_const ys y (fun x hx => h x (List.mem_cons_of_mem y hx))

lemma npMax_const {l : List ℚ} {c : ℚ} (hne : l ≠ []) (h : ∀ x ∈ l, x = c) :
    npMax l = c := by
  obtain ⟨y, ys, rfl⟩ := List.exists_cons_of_ne_nil hne
  have hy : y = c := h y (List.mem_cons_self y ys)
  subst hy
  simp only [npMax, List.headD_cons, List.foldl_cons, max_self]
  exact foldl_max_const ys y (fun x hx => h x (List.mem_cons_of_mem y hx))

/-! ### C3 -/

lemma rescaleOne_mem {cfg : PoreConfig} {minR maxR x : ℚ}
    (hmm : cfg.minPoreRadius ≤ cfg.maxPoreRadius)
    (hlt : minR < maxR) (h1 : minR ≤ x) (h2 : x ≤ maxR) :
    cfg.minPoreRadius ≤ rescaleOne cfg minR maxR x ∧
      rescaleOne cfg minR maxR x ≤ cfg.maxPoreRadius := by
  have hd : (0 : ℚ) < maxR - minR := by linarith
  have ht0 : 0 ≤ (x - minR) / (maxR - minR) := div_nonneg (by linarith) (le_of_lt hd)
  have ht1 : (x - minR) / (maxR - minR) ≤ 1 := by
    rw [div_le_one hd]
    linarith
  constructor
  · have hp : 0 ≤ (cfg.maxPoreRadius - cfg.minPoreRadius) * ((x - minR) / (maxR - minR)) :=
      mul_nonneg (by linarith) ht0
    rw [rescaleOne, mul_div_assoc]
    linarith
  · have hp : (cfg.maxPoreRadius - cfg.minPoreRadius) * ((x - minR) / (maxR - minR)) ≤
        (cfg.maxPoreRadius - cfg.minPoreRadius) * 1 :=
      mul_le_mul_of_nonneg_left ht1 (by linarith)
    rw [rescaleOne, mul_div_assoc]
    linarith

/-- C3: whenever a call succeeds and the configured radius range is
ordered (the default configuration also has pore scale factor one), every
returned render radius lies in the closed configured interval, and in the
non-degenerate case the radii are exactly the linear rescaling of the
physical radii of the selected diameters, with the minimum and maximum
taken over the currently selected subsample only. -/
theorem c3_radii_in_range (cfg : PoreConfig) (diam intr : List ℚ)
    (tape : PoreTape) (n : ℕ) (out : PoreResult)
    (hmm : cfg.minPoreRadius ≤ cfg.maxPoreRadius)
    (hscale : cfg.poreScaleFactor = 1)
    (h : generate_realistic_pores cfg diam intr tape n = .ok out) :
    (∀ r ∈ out.radii, cfg.minPoreRadius ≤ r ∧ r ≤ cfg.maxPoreRadius) ∧
      (npMax (out.diameters.map physRadius) ≠ npMin (out.diameters.map physRadius) →
        out.radii = (out.diameters.map physRadius).map
          (rescaleOne cfg (npMin (out.diameters.map physRadius))
            (npMax (out.diameters.map physRadius)))) := by
  obtain ⟨hposi, hdiam, hresc⟩ := generate_ok_elim h
  rw [hdiam]
  obtain ⟨hne, hcases⟩ := rescaleRadii_ok_elim hresc
  have hmapne : (selectedDiameters diam tape n).map physRadius ≠ [] :=
    fun hm => hne (List.map_eq_nil_iff.mp hm)
  rcases hcases with ⟨hmax, hrs⟩ | ⟨hmax, hrs⟩
  · have hlt : npMin ((selectedDiameters diam tape n).map physRadius) <
        npMax ((selectedDiameters diam tape n).map physRadius) :=
      lt_of_le_of_ne (npMin_le_npMax hmapne) (Ne.symm hmax)
    constructor
    · intro r hr
      rw [hrs] at hr
      rw [List.mem_map] at hr
      obtain ⟨y, hy, rfl⟩ := hr
      rw [List.mem_map] at hy
      obtain ⟨x, hx, rfl⟩ := hy
      rw [hscale, mul_one]
      exact rescaleOne_mem hmm hlt (npMin_le_mem hx) (mem_le_npMax hx)
    · intro _
      rw [hrs, hscale]
      simp
  · constructor
    · intro r hr
      rw [hrs] at hr
      rw [List.mem_map] at hr
      obtain ⟨y, hy, rfl⟩ := hr
      rw [List.mem_map] at hy
      obtain ⟨x, hx, rfl⟩ := hy
      rw [hscale, mul_one]
      constructor <;> [linarith; linarith]
    · intro hcontra
      exact absurd hmax hcontra

/-- C3 witness: the hypotheses hold at a concrete input and radius. -/
theorem c3_radii_in_range_witness :
    defaultConfig.minPoreRadius ≤ (11/200 : ℚ) ∧
      (11/200 : ℚ) ≤ defaultConfig.maxPoreRadius :=
  (c3_radii_in_range defaultConfig [1000] [1] constTape 1
    ⟨[(0, 0, 0)], [11/200], [1000]⟩ (by norm_num [defaultConfig]) rfl
    concreteRunA).1 (11/200) (by simp)

/-! ### C5 -/

/-- C5: if all selected source diameters of a successful call are equal
(the degenerate case where the sampled physical radii all coincide), every
returned render radius is exactly the midpoint of the configured radius
range (the default configuration has pore scale factor one). -/
theorem c5_degenerate_midpoint (cfg : PoreConfig) (diam intr : List ℚ)
    (tape : PoreTape) (n : ℕ) (out : PoreResult)
    (hscale : cfg.poreScaleFactor = 1)
    (h : generate_realistic_pores cfg diam intr tape n = .ok out)
    (hconst : ∀ d1 ∈ out.diameters, ∀ d2 ∈ out.diameters, d1 = d2) :
    ∀ r ∈ out.radii, r = (cfg.minPoreRadius + cfg.maxPoreRadius) / 2 := by
  obtain ⟨hposi, hdiam, hresc⟩ := generate_ok_elim h
  obtain ⟨hne, hcases⟩ := rescaleRadii_ok_elim hresc
  obtain ⟨d0, ds, hsel⟩ := List.exists_cons_of_ne_nil hne
  have hd0 : d0 ∈ selectedDiameters diam tape n := by
    rw [hsel]
    exact List.mem_cons_self d0 ds
  have hconst2 : ∀ x ∈ (selectedDiameters diam tape n).map physRadius,
      x = physRadius d0 := by
    intro x hx
    rw [List.mem_map] at hx
    obtain ⟨d, hd, rfl⟩ := hx
    have hdd : d = d0 := by
      apply hconst
      · rw [hdiam]; exact hd
      · rw [hdiam]; exact hd0
    rw [hdd]
  have hmapne : (selectedDiameters diam tape n).map physRadius ≠ [] :=
    fun hm => hne (List.map_eq_nil_iff.mp hm)
  have hmaxc : npMax ((selectedDiameters diam tape n).map physRadius) = physRadius d0 :=
    npMax_const hmapne hconst2
  have hminc : npMin ((selectedDiameters diam tape n).map physRadius) = physRadius d0 :=
    npMin_const hmapne hconst2
  rcases hcases with ⟨hmax, _⟩ | ⟨_, hrs⟩
  · exact absurd (hmaxc.trans hminc.symm) hmax
  · intro r hr
    rw [hrs] at hr
    rw [List.mem_map] at hr
    obtain ⟨y, hy, rfl⟩ := hr
    rw [List.mem_map] at hy
    obtain ⟨x, hx, rfl⟩ := hy
    rw [hscale, mul_one]

/-- C5 witness: a single-diameter input makes every radius the midpoint. -/
theorem c5_degenerate_midpoint_witness :
    (11/200 : ℚ) = (defaultConfig.minPoreRadius + defaultConfig.maxPoreRadius) / 2 :=
  c5_degenerate_midpoint defaultConfig [1000] [1] constTape 1
    ⟨[(0, 0, 0)], [11/200], [1000]⟩ rfl concreteRunA (by simp) (11/200) (by simp)

/-! ### C6 -/

/-- remaining = n_pores - len(pore_positions): the count of the final
    uniform stratum after the three biased strata have been appended. -/
def remCount (cfg : PoreConfig) (n : ℕ) : ℕ :=
  n - (topCount n + diagCount cfg n + edgeCount n)

/-- C6: the stratum sizes are the integer truncations of the configured
fractions of nPores, the final uniform stratum absorbs exactly the
difference, the four sizes sum to exactly nPores (and positionsOf indeed
returns nPores positions), and at nPores = 1000 with the default fractions
the sizes are 400, 250, 150 and 200. -/
theorem c6_stratum_counts (cfg : PoreConfig) (n : ℕ) (hn : 0 < n)
    (hr0 : 0 ≤ cfg.diagonalPoreRatio) (hr1 : cfg.diagonalPoreRatio ≤ 9/20) :
    topCount n + diagCount cfg n + edgeCount n + remCount cfg n = n ∧
      (∀ tape, (positionsOf cfg tape n).length = n) ∧
      (n = 1000 → cfg.diagonalPoreRatio = 1/4 →
        topCount n = 400 ∧ diagCount cfg n = 250 ∧ edgeCount n = 150 ∧
          remCount cfg n = 200) := by
  have hle := @counts_le cfg n hr0 hr1
  refine ⟨?_, ?_, ?_⟩
  · rw [remCount]
    omega
  · intro tape
    exact positionsOf_length hle
  · intro hn1000 hrq
    subst hn1000
    have ht : topCount 1000 = 400 := by
      rw [topCount, Nat.floor_eq_iff (by positivity)]
      norm_num
    have hd : diagCount cfg 1000 = 250 := by
      rw [diagCount, hrq, Nat.floor_eq_iff (by positivity)]
      norm_num
    have he : edgeCount 1000 = 150 := by
      rw [edgeCount, Nat.floor_eq_iff (by positivity)]
      norm_num
    refine ⟨ht, hd, he, ?_⟩
    rw [remCount, ht, hd, he]

/-- C6 witness: the concrete counts at nPores = 1000 with the defaults. -/
theorem c6_stratum_counts_witness :
    topCount 1000 = 400 ∧ diagCount defaultConfig 1000 = 250 ∧
      edgeCount 1000 = 150 ∧ remCount defaultConfig 1000 = 200 :=
  (c6_stratum_counts defaultConfig 1000 (by norm_num)
    (by norm_num [defaultConfig]) (by norm_num [defaultConfig])).2.2 rfl rfl

/-! ### C8 -/

lemma getD_mem {α : Type} {l : List α} {i : ℕ} (h : i < l.length) (d : α) :
    l.getD i d ∈ l := by
  rw [List.getD_eq_getElem?_getD, List.getElem?_eq_getElem h]
  simp

/-- C8: the resampling step draws one index per pore; whenever the sampled
indices are valid (the semantic guarantee of numpy choice), the returned
source diameters are exactly the input diameters at the sampled indices,
and in particular every returned source diameter is an element of the
input diameter array, for every random outcome. -/
theorem c8_diameters_from_input (cfg : PoreConfig) (diam intr : List ℚ)
    (tape : PoreTape) (n : ℕ) (out : PoreResult)
    (hidx : ∀ i, tape.choiceIdx i < diam.length)
    (h : generate_realistic_pores cfg diam intr tape n = .ok out) :
    out.diameters.length = n ∧
      (∀ i, i < n → out.diameters.getD i 0 = diam.getD (tape.choiceIdx i) 0) ∧
      ∀ d ∈ out.diameters, d ∈ diam := by
  obtain ⟨-, hdiam, -⟩ := generate_ok_elim h
  rw [hdiam]
  refine ⟨by simp [selectedDiameters], ?_, ?_⟩
  · intro i hi
    simp [selectedDiameters, List.getD_eq_getElem?_getD, List.getElem?_map,
      List.getElem?_range, hi]
  · intro d hd
    rw [selectedDiameters, List.mem_map] at hd
    obtain ⟨i, -, rfl⟩ := hd
    exact getD_mem (hidx i) 0

/-- C8 witness: the hypotheses hold at a concrete input. -/
theorem c8_diameters_from_input_witness :
    ([1000] : List ℚ).length = 1 ∧ (1000 : ℚ) ∈ ([1000] : List ℚ) :=
  ⟨(c8_diameters_from_input defaultConfig [1000] [1] constTape 1
      ⟨[(0, 0, 0)], [11/200], [1000]⟩ (fun i => by simp [constTape])
      concreteRunA).1,
   (c8_diameters_from_input defaultConfig [1000] [1] constTape 1
      ⟨[(0, 0, 0)], [11/200], [1000]⟩ (fun i => by simp [constTape])
      concreteRunA).2.2 1000 (by simp)⟩

/-! ### C9 -/

lemma getD_map_lt {l : List ℚ} {g : ℚ → ℚ} {k : ℕ} (h : k < l.length) :
    (l.map g).getD k 0 = g (l.getD k 0) := by
  rw [List.getD_eq_getElem?_getD, List.getD_eq_getElem?_getD, List.getElem?_map,
    List.getElem?_eq_getElem h]
  simp

lemma rescaleOne_mono {cfg : PoreConfig} {minR maxR a b : ℚ}
    (hmm : cfg.minPoreRadius ≤ cfg.maxPoreRadius) (hlt : minR < maxR)
    (hab : a ≤ b) : rescaleOne cfg minR maxR a ≤ rescaleOne cfg minR maxR b := by
  have hd : (0 : ℚ) < maxR - minR := by linarith
  have hnum : (cfg.maxPoreRadius - cfg.minPoreRadius) * (a - minR) ≤
      (cfg.maxPoreRadius - cfg.minPoreRadius) * (b - minR) :=
    mul_le_mul_of_nonneg_left (by linarith) (by linarith)
  have h1 := (div_le_div_iff_of_pos_right hd).mpr hnum
  rw [rescaleOne, rescaleOne]
  linarith

/-- C9: within one successful call the render radii are monotone
non-decreasing in the selected source diameters: whenever the source
diameter at index i is at most the one at index j, the render radius at
index i is at most the one at index j. -/
theorem c9_radii_monotone (cfg : PoreConfig) (diam intr : List ℚ)
    (tape : PoreTape) (n : ℕ) (out : PoreResult)
    (hmm : cfg.minPoreRadius ≤ cfg.maxPoreRadius)
    (hscale : cfg.poreScaleFactor = 1)
    (h : generate_realistic_pores cfg diam intr tape n = .ok out)
    (i j : ℕ) (hi : i < out.diameters.length) (hj : j < out.diameters.length)
    (hd : out.diameters.getD i 0 ≤ out.diameters.getD j 0) :
    out.radii.getD i 0 ≤ out.radii.getD j 0 := by
  obtain ⟨-, hdiam, hresc⟩ := generate_ok_elim h
  obtain ⟨hne, hcases⟩ := rescaleRadii_ok_elim hresc
  rw [hdiam] at hi hj hd
  have hmapne : (selectedDiameters diam tape n).map physRadius ≠ [] :=
    fun hm => hne (List.map_eq_nil_iff.mp hm)
  rcases hcases with ⟨hmax, hrs⟩ | ⟨hmax, hrs⟩
  · rw [List.map_map, List.map_map] at hrs
    rw [hrs, getD_map_lt hi, getD_map_lt hj]
    have hlt : npMin ((selectedDiameters diam tape n).map physRadius) <
        npMax ((selectedDiameters diam tape n).map physRadius) :=
      lt_of_le_of_ne (npMin_le_npMax hmapne) (Ne.symm hmax)
    simp only [Function.comp_apply, hscale, mul_one]
    refine rescaleOne_mono hmm hlt ?_
    rw [physRadius, physRadius]
    linarith
  · rw [List.map_map, List.map_map] at hrs
    rw [hrs, getD_map_lt hi, getD_map_lt hj]
    exact le_refl _

/-- C9 witness: the hypotheses hold at a concrete input and index pair. -/
theorem c9_radii_monotone_witness :
    ([11/200] : List ℚ).getD 0 0 ≤ ([11/200] : List ℚ).getD 0 0 :=
  c9_radii_monotone defaultConfig [1000] [1] constTape 1
    ⟨[(0, 0, 0)], [11/200], [1000]⟩ (by norm_num [defaultConfig]) rfl
    concreteRunA 0 0 (by simp) (by simp) (le_refl _)

/-! ### C10 -/

/-- C10: the returned positions depend only on the configuration, the
random tape and the pore count.  Two successful calls with the same tape
and count but different diameter and intrusion datasets return identical
position arrays: pore position is computed independently of pore size. -/
theorem c10_positions_independent (cfg : PoreConfig) (tape : PoreTape) (n : ℕ)
    (diam1 intr1 diam2 intr2 : List ℚ) (out1 out2 : PoreResult)
    (h1 : generate_realistic_pores cfg diam1 intr1 tape n = .ok out1)
    (h2 : generate_realistic_pores cfg diam2 intr2 tape n = .ok out2) :
    out1.positions = out2.positions :=
  (generate_ok_elim h1).1.trans (generate_ok_elim h2).1.symm

/-- C10 witness: two concrete runs over different datasets. -/
theorem c10_positions_independent_witness :
    (⟨[(0, 0, 0)], [11/200], [1000]⟩ : PoreResult).positions =
      (⟨[(0, 0, 0)], [11/200], [2000]⟩ : PoreResult).positions :=
  c10_positions_independent defaultConfig constTape 1 [1000] [1] [2000] [3]
    _ _ concreteRunA concreteRunB

/-! ### C4 -/

lemma sum_neg_of_all_neg (l : List ℚ) : l ≠ [] → (∀ v ∈ l, v < 0) → l.sum < 0 := by
  induction l with
  | nil => intro hne _; exact absurd rfl hne
  | cons x xs ih =>
    intro _ h
    rw [List.sum_cons]
    rcases eq_or_ne xs [] with rfl | hxs
    · simpa using h x (List.mem_cons_self x [])
    · have h2 := ih hxs (fun v hv => h v (List.mem_cons_of_mem x hv))
      have h1 := h x (List.mem_cons_self x xs)
      linarith

lemma npSum_norm_zero {intr : List ℚ} (hne : intr ≠ []) (hsum : intr.sum = 0) :
    npSum (norm_intrusion intr) = .nan := by
  rw [norm_intrusion, if_pos hsum]
  by_cases h0 : ∃ v ∈ intr, v = 0
  · obtain ⟨v, hv, rfl⟩ := h0
    apply npSum_eq_nan_of_mem
    rw [List.mem_map]
    exact ⟨0, hv, by rw [divByZero, if_pos rfl]⟩
  · push_neg at h0
    have hpos : ∃ v ∈ intr, 0 < v := by
      by_contra hc
      push_neg at hc
      have hneg : ∀ v ∈ intr, v < 0 :=
        fun v hv => lt_of_le_of_ne (hc v hv) (h0 v hv)
      exact absurd hsum (ne_of_lt (sum_neg_of_all_neg intr hne hneg))
    have hneg : ∃ v ∈ intr, v < 0 := by
      by_contra hc
      push_neg at hc
      have hpos2 : ∀ v ∈ intr, 0 < v :=
        fun v hv => lt_of_le_of_ne (hc v hv) (Ne.symm (h0 v hv))
      exact absurd hsum (ne_of_gt (List.sum_pos intr hpos2 hne))
    obtain ⟨vp, hvp, hvp0⟩ := hpos
    obtain ⟨vn, hvn, hvn0⟩ := hneg
    apply npSum_nan_of_pm
    · rw [List.mem_map]
      exact ⟨vp, hvp, by rw [divByZero, if_neg (ne_of_gt hvp0), if_pos hvp0]⟩
    · rw [List.mem_map]
      exact ⟨vn, hvn, by
        rw [divByZero, if_neg (ne_of_lt hvn0), if_neg (not_lt.mpr (le_of_lt hvn0))]⟩

/-- C4 counterexample: with the all-zero intrusion vector NaN does enter
the normalized probabilities (the code performs no validation before
dividing), and the call then fails inside numpy choice with the generic
probabilities-contain-NaN ValueError rather than through any explicit
InvalidDistribution check. -/
theorem c4_counterexample :
    NpFloat.nan ∈ norm_intrusion [0, 0] ∧
      generate_realistic_pores defaultConfig [1000, 2000] [0, 0] constTape 5 =
        .error .probContainsNaN := by
  have hni : norm_intrusion [0, 0] = [.nan, .nan] := by
    rw [norm_intrusion, if_pos (by norm_num)]
    simp [divByZero]
  refine ⟨by rw [hni]; simp, ?_⟩
  have hcheck : choiceCheck ([1000, 2000] : List ℚ).length (norm_intrusion [0, 0]) =
      .error .probContainsNaN := by
    rw [hni, choiceCheck, if_neg (by simp),
      if_pos (show npSum [NpFloat.nan, NpFloat.nan] = NpFloat.nan from rfl)]
  unfold generate_realistic_pores
  rw [hcheck]

/-- C4(amended): a zero intrusion sum is not validated by the sampler:
the normalization divides by zero so the normalized probabilities are
non-finite (NaN for the all-zero vector), and the subsequent numpy choice
call raises a generic ValueError, so the call errors without returning
positions; no explicit InvalidDistribution check exists in the code. -/
theorem c4_zero_sum_errors (cfg : PoreConfig) (diam intr : List ℚ)
    (tape : PoreTape) (n : ℕ) (hne : intr ≠ []) (hsum : intr.sum = 0) :
    ∃ e, generate_realistic_pores cfg diam intr tape n = .error e := by
  by_cases hlen : (norm_intrusion intr).length ≠ diam.length
  · refine ⟨.sizeMismatch, ?_⟩
    unfold generate_realistic_pores choiceCheck
    rw [if_pos hlen]
  · refine ⟨.probContainsNaN, ?_⟩
    unfold generate_realistic_pores choiceCheck
    rw [if_neg hlen, if_pos (npSum_norm_zero hne hsum)]

/-- C4 witness for the amended statement. -/
theorem c4_zero_sum_errors_witness :
    ∃ e, generate_realistic_pores defaultConfig [1000] [0] constTape 3 = .error e :=
  c4_zero_sum_errors defaultConfig [1000] [0] constTape 3 (by simp) (by simp)

/-! ### C7 -/

/-- C7 counterexample: nPores = 0 with a valid one-point dataset makes the
call raise the zero-size reduction ValueError (np.max over the empty
selected-radii array) instead of returning an empty pore set. -/
theorem c7_counterexample :
    generate_realistic_pores defaultConfig [1000] [1] constTape 0 =
      .error .zeroSizeReduction := by
  have hcc : choiceCheck ([1000] : List ℚ).length (norm_intrusion [1]) = .ok () :=
    choiceCheck_ok _ _ (by simp) (by norm_num) (by norm_num)
  have hsel : selectedDiameters [1000] constTape 0 = [] := by
    simp [selectedDiameters]
  unfold generate_realistic_pores
  rw [hcc, hsel, rescaleRadii_nil]

/-- C7(amended): for every valid dataset, calling with nPores = 0 raises
the zero-size reduction error from the radius rescaling step rather than
returning an empty pore set. -/
theorem c7_zero_npores_errors (cfg : PoreConfig) (diam intr : List ℚ)
    (tape : PoreTape)
    (hlen : intr.length = diam.length) (hnn : ∀ v ∈ intr, 0 ≤ v)
    (hpos : 0 < intr.sum) :
    generate_realistic_pores cfg diam intr tape 0 = .error .zeroSizeReduction := by
  have hcc := choiceCheck_ok diam.length intr hlen hnn hpos
  have hsel : selectedDiameters diam tape 0 = [] := by simp [selectedDiameters]
  unfold generate_realistic_pores
  rw [hcc, hsel, rescaleRadii_nil]

/-- C7 witness for the amended statement at another concrete dataset. -/
theorem c7_zero_npores_errors_witness :
    generate_realistic_pores defaultConfig [500, 800] [2, 1] constTape 0 =
      .error .zeroSizeReduction :=
  c7_zero_npores_errors defaultConfig [500, 800] [2, 1] constTape rfl
    (by norm_num) (by norm_num)

end PoreModel
